import Mathlib

/-!
Verification of the intensity-segments store (`src/package/intensitySegment.ts`,
`src/package/utils.ts`, and the compression pass of the breakpoint-list variant
of the same repository).

The store keeps a JS `Map` from points to intensities together with a sorted
key array and a dirty flag.  Points and intensities are modelled as `Int`
(the repository only ever exercises integral values); JS `Map` is modelled as
an insertion-ordered association list with unique keys.
-/

set_option maxHeartbeats 1000000

/-! ### JS number values, for the validation layer (`utils.ts` / `validateInput`) -/

/-- A JS number: NaN, the two infinities, or a finite value. -/
inductive JSNum where
  | nan : JSNum
  | posInf : JSNum
  | negInf : JSNum
  | fin : Int → JSNum
deriving DecidableEq

/-- A JS value passed to `add`/`set`: a number or some non-number value
(string, object, ...), which only the `typeof` check distinguishes. -/
inductive JSVal where
  | num : JSNum → JSVal
  | other : JSVal
deriving DecidableEq

/-- The `typeof x === 'number'` test. -/
def isNumber : JSVal → Bool
  | .num _ => true
  | .other => false

/-- JS `>=` on numbers: any comparison involving NaN is false;
`+Infinity >= x` holds for non-NaN `x`, `x >= -Infinity` for non-NaN `x`. -/
def jsGe : JSNum → JSNum → Bool
  | .nan, _ => false
  | _, .nan => false
  | .posInf, _ => true
  | _, .posInf => false
  | _, .negInf => true
  | .negInf, _ => false
  | .fin a, .fin b => a ≥ b

/-- JS `from >= to` on two values already known to be numbers. -/
def jsGeVal : JSVal → JSVal → Bool
  | .num a, .num b => jsGe a b
  | _, _ => false

/-- The three validation failures of `validateInput`. -/
inductive ValErr where
  | invalidType : ValErr
  | invalidRange : ValErr
  | invalidAmount : ValErr
deriving DecidableEq

/-- `amount === Infinity || amount === -Infinity`. -/
def isInfinite : JSVal → Bool
  | .num .posInf => true
  | .num .negInf => true
  | _ => false

/-- `validateInput` from `src/package/utils.ts`: type check, then
`from >= to` check, then the infinity check on `amount`. -/
def validateInput (f t amount : JSVal) : Except ValErr Unit :=
  if ¬ (isNumber f = true ∧ isNumber t = true ∧ isNumber amount = true) then
    .error .invalidType
  else if jsGeVal f t = true then
    .error .invalidRange
  else if isInfinite amount = true then
    .error .invalidAmount
  else
    .ok ()

/-! ### The JS `Map<number, number>`, as an insertion-ordered association list -/

/-- `map.has(k)`. -/
def mapHas (m : List (Int × Int)) (k : Int) : Bool :=
  m.any (fun p => p.1 == k)

/-- `map.get(k)` (first matching entry; keys are unique in a JS `Map`). -/
def mapGet (m : List (Int × Int)) (k : Int) : Option Int :=
  (m.find? (fun p => p.1 == k)).map Prod.snd

/-- `map.set(k, v)`: overwrite the existing entry, else append a new one. -/
def mapSet (m : List (Int × Int)) (k v : Int) : List (Int × Int) :=
  if mapHas m k then m.map (fun p => if p.1 == k then (k, v) else p)
  else m ++ [(k, v)]

/-- `Array.from(map.keys())`. -/
def mapKeys (m : List (Int × Int)) : List Int :=
  m.map Prod.fst

theorem mapGet_nil (k : Int) : mapGet [] k = none := rfl

theorem mapGet_cons (p : Int × Int) (m : List (Int × Int)) (k : Int) :
    mapGet (p :: m) k = if p.1 = k then some p.2 else mapGet m k := by
  unfold mapGet
  by_cases h : p.1 = k
  · rw [List.find?_cons_of_pos _ (by simpa using h), if_pos h]
    rfl
  · rw [List.find?_cons_of_neg _ (by simpa using h), if_neg h]

theorem mapHas_eq_isSome (m : List (Int × Int)) (k : Int) :
    mapHas m k = (mapGet m k).isSome := by
  induction m with
  | nil => rfl
  | cons p rest ih =>
    rw [mapGet_cons]
    unfold mapHas at ih ⊢
    by_cases h : p.1 = k
    · simp [h]
    · simp only [List.any_cons, if_neg h, ih]
      have : (p.1 == k) = false := by simpa using h
      rw [this, Bool.false_or]

theorem mapHas_iff_mem_keys (m : List (Int × Int)) (k : Int) :
    mapHas m k = true ↔ k ∈ mapKeys m := by
  unfold mapHas mapKeys
  rw [List.any_eq_true]
  constructor
  · rintro ⟨p, hp, hpk⟩
    exact List.mem_map.mpr ⟨p, hp, by simpa using hpk⟩
  · intro hk
    rcases List.mem_map.mp hk with ⟨p, hp, hpk⟩
    exact ⟨p, hp, by simpa using hpk⟩

theorem mapGet_map_subst (m : List (Int × Int)) (k v k' : Int) :
    mapGet (m.map (fun p => if p.1 == k then (k, v) else p)) k' =
      if k' = k then Option.map (fun _ => v) (mapGet m k) else mapGet m k' := by
  induction m with
  | nil => by_cases h : k' = k <;> simp [mapGet, h]
  | cons p rest ih =>
    simp only [beq_iff_eq] at ih ⊢
    by_cases hpk : p.1 = k
    · by_cases hkk : k' = k
      · simp [List.map_cons, mapGet_cons, hpk, hkk]
      · have hkk' : ¬ (k : Int) = k' := fun h => hkk h.symm
        have hpk' : ¬ p.1 = k' := fun h => hkk ((hpk.symm.trans h).symm)
        simp [List.map_cons, mapGet_cons, hpk, hkk, hkk', hpk', ih]
    · by_cases hkk : k' = k
      · have hpk' : ¬ p.1 = k' := fun h => hpk (h.trans hkk)
        subst hkk
        simp [List.map_cons, mapGet_cons, hpk, hpk', ih]
      · by_cases hpk' : p.1 = k'
        · simp [List.map_cons, mapGet_cons, hpk, hkk, hpk']
        · simp [List.map_cons, mapGet_cons, hpk, hkk, hpk', ih]

theorem mapGet_set (m : List (Int × Int)) (k v k' : Int) :
    mapGet (mapSet m k v) k' = if k' = k then some v else mapGet m k' := by
  unfold mapSet
  by_cases hhas : mapHas m k
  · rw [if_pos hhas, mapGet_map_subst]
    by_cases hkk : k' = k
    · rw [if_pos hkk, if_pos hkk]
      rw [mapHas_eq_isSome] at hhas
      rcases Option.isSome_iff_exists.mp hhas with ⟨w, hw⟩
      rw [hw]
      rfl
    · rw [if_neg hkk, if_neg hkk]
  · rw [if_neg hhas]
    unfold mapGet
    rw [List.find?_append]
    by_cases hkk : k' = k
    · subst hkk
      have hnone : m.find? (fun p => p.1 == k') = none := by
        rw [List.find?_eq_none]
        intro p hp hpk
        exact hhas (List.any_eq_true.mpr ⟨p, hp, hpk⟩)
      rw [hnone, if_pos rfl]
      simp [List.find?]
    · rw [if_neg hkk]
      have hone : List.find? (fun p => p.1 == k') [(k, v)] = none := by
        have : (((k, v) : Int × Int).1 == k') = false := by
          simpa using fun h : (k : Int) = k' => hkk h.symm
        simp [List.find?, this]
      rw [hone]
      cases m.find? (fun p => p.1 == k') <;> simp

theorem mapGet_set_self (m : List (Int × Int)) (k v : Int) :
    mapGet (mapSet m k v) k = some v := by
  rw [mapGet_set, if_pos rfl]

theorem mapGet_set_ne (m : List (Int × Int)) (k v k' : Int) (hne : k' ≠ k) :
    mapGet (mapSet m k v) k' = mapGet m k' := by
  rw [mapGet_set, if_neg hne]

theorem mapKeys_set_of_has (m : List (Int × Int)) (k v : Int) (hhas : mapHas m k = true) :
    mapKeys (mapSet m k v) = mapKeys m := by
  unfold mapSet mapKeys
  rw [if_pos hhas, List.map_map]
  apply List.map_congr_left
  intro p _
  by_cases hpk : p.1 = k
  · simp [beq_iff_eq, hpk]
  · simp [beq_iff_eq, hpk]

theorem mapKeys_set_of_not_has (m : List (Int × Int)) (k v : Int)
    (hhas : mapHas m k = false) :
    mapKeys (mapSet m k v) = mapKeys m ++ [k] := by
  unfold mapSet mapKeys
  rw [if_neg (by simp [hhas])]
  simp

theorem mapHas_set (m : List (Int × Int)) (k v k' : Int) :
    mapHas (mapSet m k v) k' = (mapHas m k' || k' == k) := by
  rw [mapHas_eq_isSome, mapGet_set]
  by_cases hkk : k' = k
  · simp [hkk]
  · rw [if_neg hkk, ← mapHas_eq_isSome]
    have : (k' == k) = false := by simpa using hkk
    simp [this]

theorem mapKeys_nodup_set (m : List (Int × Int)) (k v : Int)
    (hnd : (mapKeys m).Nodup) : (mapKeys (mapSet m k v)).Nodup := by
  by_cases hhas : mapHas m k
  · rw [mapKeys_set_of_has m k v hhas]
    exact hnd
  · rw [mapKeys_set_of_not_has m k v (by simpa using hhas)]
    have hk : k ∉ mapKeys m := by
      rw [← mapHas_iff_mem_keys]
      simpa using hhas
    simp [List.nodup_append, hnd, hk]

/-- JS `map.get(k) || 0`: on integer values this is just the value with
default `0` (the only falsy integer is `0` itself). -/
def mapGetD (m : List (Int × Int)) (k : Int) : Int :=
  (mapGet m k).getD 0

/-! ### Sorting the key array -/

/-- `Array.from(map.keys()).sort((a, b) => a - b)`: a comparison sort under
the numeric order.  On the duplicate-free key list of a `Map` every correct
comparison sort returns the unique ascending reordering, here modelled by
insertion sort. -/
def sortKeys (l : List Int) : List Int :=
  List.insertionSort (· ≤ ·) l

theorem sortKeys_perm (l : List Int) : (sortKeys l).Perm l :=
  List.perm_insertionSort _ l

theorem mem_sortKeys (l : List Int) (k : Int) : k ∈ sortKeys l ↔ k ∈ l :=
  (sortKeys_perm l).mem_iff

theorem sortKeys_sorted_lt (l : List Int) (h : l.Nodup) :
    (sortKeys l).Sorted (· < ·) :=
  (List.sorted_insertionSort _ l).lt_of_le ((sortKeys_perm l).nodup_iff.mpr h)

/-! ### The greatest element of a sorted list satisfying a predicate -/

/-- The last (= greatest, on a sorted list) element satisfying `q`. -/
def lastSat (q : Int → Bool) (l : List Int) : Option Int :=
  (l.filter q).getLast?

/-- Greatest key `≤ p`: the intensity-bearing breakpoint for a query point. -/
def lastKeyLE (l : List Int) (p : Int) : Option Int :=
  lastSat (fun k => k ≤ p) l

/-- Greatest key `< p`: the contract of `findClosestLeftPoint`. -/
def lastKeyLT (l : List Int) (p : Int) : Option Int :=
  lastSat (fun k => k < p) l

theorem lastSat_eq_none_iff (q : Int → Bool) (l : List Int) :
    lastSat q l = none ↔ ∀ k ∈ l, ¬ q k = true := by
  unfold lastSat
  rw [List.getLast?_eq_none_iff, List.filter_eq_nil_iff]

theorem le_getLast?_of_sorted {l : List Int} (h : l.Sorted (· ≤ ·)) {m : Int}
    (hm : l.getLast? = some m) : ∀ k ∈ l, k ≤ m := by
  induction l with
  | nil => simp at hm
  | cons x rest ih =>
    rcases List.sorted_cons.mp h with ⟨hx, hrest⟩
    cases rest with
    | nil =>
      simp only [List.getLast?_singleton, Option.some_inj] at hm
      subst hm
      simp
    | cons y t =>
      rw [List.getLast?_cons_cons] at hm
      intro k hk
      rcases List.mem_cons.mp hk with hkx | hkrest
      · subst hkx
        have hmmem : m ∈ y :: t := List.mem_of_mem_getLast? hm
        exact hx m hmmem
      · exact ih hrest hm k hkrest

theorem lastSat_spec (q : Int → Bool) {l : List Int} (hs : l.Sorted (· < ·))
    {m : Int} (hm : lastSat q l = some m) :
    m ∈ l ∧ q m = true ∧ ∀ k ∈ l, q k = true → k ≤ m := by
  unfold lastSat at hm
  have hmem := List.mem_of_mem_getLast? hm
  rcases List.mem_filter.mp hmem with ⟨hml, hqm⟩
  refine ⟨hml, hqm, ?_⟩
  intro k hk hqk
  have hkf : k ∈ l.filter q := List.mem_filter.mpr ⟨hk, hqk⟩
  exact le_getLast?_of_sorted ((hs.filter q).le_of_lt) hm k hkf

theorem lastSat_eq_some (q : Int → Bool) {l : List Int} (hs : l.Sorted (· < ·))
    {m : Int} (hmem : m ∈ l) (hq : q m = true)
    (hmax : ∀ k ∈ l, q k = true → k ≤ m) : lastSat q l = some m := by
  have hne : l.filter q ≠ [] := by
    intro hnil
    exact absurd hq (by simpa using (List.filter_eq_nil_iff.mp hnil) m hmem)
  rcases Option.isSome_iff_exists.mp (List.getLast?_isSome.mpr hne) with ⟨m', hm'⟩
  rcases lastSat_spec q hs hm' with ⟨hm'l, hqm', hmax'⟩
  have h1 : m' ≤ m := hmax m' hm'l hqm'
  have h2 : m ≤ m' := hmax' m hmem hq
  have : m = m' := le_antisymm h2 h1
  rw [← this] at hm'
  exact hm'

/-! ### `findClosestLeftPoint` (binary search from `utils.ts`)

The JS loop keeps `left` and `right` with `while (left <= right)`,
`mid = Math.floor((left + right) / 2)`, and `result` the index of the last
element known to be `< key` (`-1`, i.e. `none`, when there is none yet).
To stay in `Nat` the upper bound is stored shifted by one: `rr = right + 1`,
so `left <= right` reads `left < rr`, `right = mid - 1` reads `rr = mid`,
and `mid = Math.floor((left + right) / 2) = (left + rr - 1) / 2`.
The loop runs at most `length` times, so fuel `length + 1` is exact. -/
def fclpGo (a : List Int) (key : Int) : Nat → Nat → Nat → Option Nat → Option Nat
  | 0, _, _, result => result
  | fuel + 1, left, rr, result =>
    if left < rr then
      if a.getD ((left + rr - 1) / 2) 0 < key then
        fclpGo a key fuel ((left + rr - 1) / 2 + 1) rr (some ((left + rr - 1) / 2))
      else
        fclpGo a key fuel left ((left + rr - 1) / 2) result
    else result

/-- `findClosestLeftPoint(sortedArray, key)` from `src/package/utils.ts`:
the returned index is dereferenced (`undefined`, i.e. `none`, for `-1`). -/
def findClosestLeftPoint (a : List Int) (key : Int) : Option Int :=
  (fclpGo a key (a.length + 1) 0 a.length none).map (fun i => a.getD i 0)

theorem getD_eq_getElem (a : List Int) (i : Nat) (h : i < a.length) :
    a.getD i 0 = a[i] := by
  rw [List.getD_eq_getElem?_getD, List.getElem?_eq_getElem h, Option.getD_some]

theorem sorted_getD_le {a : List Int} (ha : a.Sorted (· < ·)) {i j : Nat}
    (hij : i ≤ j) (hj : j < a.length) : a.getD i 0 ≤ a.getD j 0 := by
  have hi : i < a.length := lt_of_le_of_lt hij hj
  rw [getD_eq_getElem a i hi, getD_eq_getElem a j hj]
  rcases Nat.lt_or_ge i j with hlt | hge
  · exact le_of_lt (ha.rel_get_of_lt (a := ⟨i, hi⟩) (b := ⟨j, hj⟩) hlt)
  · have : i = j := le_antisymm hij hge
    subst this
    exact le_refl _

theorem fclpGo_correct (a : List Int) (key : Int) (ha : a.Sorted (· < ·)) :
    ∀ fuel left rr result,
      rr ≤ a.length → left ≤ rr → rr - left < fuel →
      (∀ i : Nat, i < left → a.getD i 0 < key) →
      (∀ i : Nat, rr ≤ i → i < a.length → ¬ a.getD i 0 < key) →
      (result = if 0 < left then some (left - 1) else none) →
      (fclpGo a key fuel left rr result).map (fun i => a.getD i 0) =
        lastKeyLT a key := by
  intro fuel
  induction fuel with
  | zero =>
    intro left rr result _ _ hfuel _ _ _
    omega
  | succ fuel ih =>
    intro left rr result hrr hlr hfuel hleft hright hres
    rw [fclpGo]
    by_cases hcond : left < rr
    · rw [if_pos hcond]
      have hmid1 : left ≤ (left + rr - 1) / 2 := by omega
      have hmid2 : (left + rr - 1) / 2 < rr := by omega
      have hmidlen : (left + rr - 1) / 2 < a.length := lt_of_lt_of_le hmid2 hrr
      by_cases hkey : a.getD ((left + rr - 1) / 2) 0 < key
      · rw [if_pos hkey]
        apply ih ((left + rr - 1) / 2 + 1) rr (some ((left + rr - 1) / 2))
          hrr (by omega) (by omega)
        · intro i hi
          exact lt_of_le_of_lt (sorted_getD_le ha (by omega) hmidlen) hkey
        · exact hright
        · rw [if_pos (by omega)]
          congr 1
      · rw [if_neg hkey]
        apply ih left ((left + rr - 1) / 2) result (by omega) hmid1 (by omega)
          hleft
        · intro i hi hilen
          intro hik
          exact hkey (lt_of_le_of_lt (sorted_getD_le ha hi hilen) hik)
        · exact hres
    · rw [if_neg hcond]
      have hleq : left = rr := by omega
      subst hleq
      by_cases hl0 : 0 < left
      · rw [hres, if_pos hl0]
        have hmem : a.getD (left - 1) 0 ∈ a := by
          rw [getD_eq_getElem a (left - 1) (by omega)]
          exact List.getElem_mem _
        have hq : a.getD (left - 1) 0 < key := hleft (left - 1) (by omega)
        have hmax : ∀ k ∈ a, k < key → k ≤ a.getD (left - 1) 0 := by
          intro k hk hklt
          rcases List.mem_iff_getElem.mp hk with ⟨j, hj, hje⟩
          by_cases hjl : j < left
          · rw [← hje, ← getD_eq_getElem a j hj]
            exact sorted_getD_le ha (by omega) (by omega)
          · exfalso
            apply hright j (by omega) hj
            rw [getD_eq_getElem a j hj, hje]
            exact hklt
        simp only [Option.map_some']
        unfold lastKeyLT
        exact (lastSat_eq_some _ ha hmem (by simpa using hq)
          (by intro k hk hq'; exact hmax k hk (by simpa using hq'))).symm
      · rw [hres, if_neg hl0]
        simp only [Option.map_none']
        symm
        unfold lastKeyLT
        rw [lastSat_eq_none_iff]
        intro k hk
        rcases List.mem_iff_getElem.mp hk with ⟨j, hj, hje⟩
        simp only [decide_eq_true_eq]
        intro hklt
        apply hright j (by omega) hj
        rw [getD_eq_getElem a j hj, hje]
        exact hklt

theorem findClosestLeftPoint_eq_lastKeyLT (a : List Int) (key : Int)
    (ha : a.Sorted (· < ·)) :
    findClosestLeftPoint a key = lastKeyLT a key := by
  unfold findClosestLeftPoint
  apply fclpGo_correct a key ha (a.length + 1) 0 a.length none
    (le_refl _) (by omega) (by omega)
  · intro i hi
    omega
  · intro i hi hilen
    omega
  · rfl

/-! ### The store (`src/package/intensitySegment.ts`) -/

/-- The private state of an `IntensitySegments` instance: the point→intensity
map, the cached ascending key array, and the lazy-rebuild dirty flag. -/
structure Store where
  segmentMap : List (Int × Int)
  sortedKeys : List Int
  needsRebuild : Bool
deriving DecidableEq

namespace IntensitySegments

/-- A freshly constructed `IntensitySegments`. -/
def emptyStore : Store :=
  { segmentMap := [], sortedKeys := [], needsRebuild := false }

/-- `markDirty()`. -/
def markDirty (st : Store) : Store :=
  { st with needsRebuild := true }

/-- `rebuildIfNeeded()`: re-sort the key array from the map keys. -/
def rebuildIfNeeded (st : Store) : Store :=
  if st.needsRebuild then
    { st with sortedKeys := sortKeys (mapKeys st.segmentMap), needsRebuild := false }
  else st

/-- `handleAddStartPoint(from, amount)`. -/
def handleAddStartPoint (st : Store) (f a : Int) : Store :=
  if mapHas st.segmentMap f then
    { st with segmentMap := mapSet st.segmentMap f (mapGetD st.segmentMap f + a) }
  else
    let st1 := rebuildIfNeeded (markDirty { st with segmentMap := mapSet st.segmentMap f 0 })
    match findClosestLeftPoint st1.sortedKeys f with
    | some clp =>
        { st1 with segmentMap := mapSet st1.segmentMap f (mapGetD st1.segmentMap clp + a) }
    | none =>
        { st1 with segmentMap := mapSet st1.segmentMap f a }

/-- `updateIntermediatePoints(from, to, amount)`. -/
def updateIntermediatePoints (st : Store) (f t a : Int) : Store :=
  { st with
    segmentMap := st.sortedKeys.foldl
      (fun m key => if f < key ∧ key < t then mapSet m key (mapGetD m key + a) else m)
      st.segmentMap }

/-- `handleAddEndPoint(to, amount)`. -/
def handleAddEndPoint (st : Store) (t a : Int) : Store :=
  if mapHas st.segmentMap t then st
  else
    let st1 := rebuildIfNeeded (markDirty { st with segmentMap := mapSet st.segmentMap t 0 })
    match findClosestLeftPoint st1.sortedKeys t with
    | some clp =>
        { st1 with segmentMap := mapSet st1.segmentMap t (mapGetD st1.segmentMap clp - a) }
    | none =>
        { st1 with segmentMap := mapSet st1.segmentMap t 0 }

/-- `add(from, to, amount)`, after validation has passed. -/
def add (st : Store) (f t a : Int) : Store :=
  handleAddEndPoint (updateIntermediatePoints (handleAddStartPoint st f a) f t a) t a

/-- `set(from, to, amount)`, after validation has passed: place placeholders
at `from`/`to`, rebuild the key array, overwrite `[from, to)` with `amount`,
then write the `to` breakpoint from `findClosestLeftPoint`. -/
def set (st : Store) (f t a : Int) : Store :=
  let st1 :=
    if mapHas st.segmentMap f then st
    else markDirty { st with segmentMap := mapSet st.segmentMap f 0 }
  let st2 :=
    if mapHas st1.segmentMap t then st1
    else markDirty { st1 with segmentMap := mapSet st1.segmentMap t 0 }
  let st3 := rebuildIfNeeded st2
  let st4 := { st3 with segmentMap := mapSet st3.segmentMap f a }
  let st5 :=
    { st4 with
      segmentMap := st4.sortedKeys.foldl
        (fun m key => if f < key ∧ key < t then mapSet m key a else m)
        st4.segmentMap }
  match findClosestLeftPoint st5.sortedKeys t with
  | some clp =>
      if clp < f then
        { st5 with segmentMap := mapSet st5.segmentMap t (mapGetD st5.segmentMap clp) }
      else
        { st5 with segmentMap := mapSet st5.segmentMap t 0 }
  | none =>
      { st5 with segmentMap := mapSet st5.segmentMap t 0 }

end IntensitySegments

/-- `mapToSortedArray` from `utils.ts` (`map.get(key)!`: on reachable stores
every sorted key is present in the map, so the `.getD 0` default is never
consulted). -/
def mapToSortedArray (m : List (Int × Int)) (keys : List Int) : List (Int × Int) :=
  keys.map (fun key => (key, (mapGet m key).getD 0))

namespace IntensitySegments

/-- The breakpoint list rendered by `toString()` before `JSON.stringify`. -/
def toList (st : Store) : List (Int × Int) :=
  mapToSortedArray st.segmentMap st.sortedKeys

end IntensitySegments

/-- `JSON.stringify` of a list of integer pairs, e.g. `[[10,1],[30,0]]`. -/
def jsonOfSegs (l : List (Int × Int)) : String :=
  "[" ++ String.intercalate ","
    (l.map (fun p =>
      "[" ++ ToString.toString p.1 ++ "," ++ ToString.toString p.2 ++ "]")) ++ "]"

namespace IntensitySegments

/-- `toString()` of the store. -/
def render (st : Store) : String :=
  jsonOfSegs (toList st)

end IntensitySegments

/-- Intensity at `p` of a breakpoint list: the intensity of the last
breakpoint with point `≤ p`, or `0` if there is none. -/
def stepValueOfList (l : List (Int × Int)) (p : Int) : Int :=
  (((l.filter (fun q => q.1 ≤ p)).getLast?).map Prod.snd).getD 0

namespace IntensitySegments

/-- The step function represented by the store. -/
def intensityF (st : Store) (p : Int) : Int :=
  stepValueOfList (toList st) p

end IntensitySegments

/-! ### `compressAndTrim` (`src/unnamed/part_001`, the breakpoint-list variant) -/

/-- Step 1 of `compressAndTrim`: keep an entry only when its intensity differs
from the last kept intensity (`none` models the initial `null`). -/
def dedupAdjGo (lastI : Option Int) : List (Int × Int) → List (Int × Int)
  | [] => []
  | s :: rest =>
    if some s.2 = lastI then dedupAdjGo lastI rest
    else s :: dedupAdjGo (some s.2) rest

/-- Step 3 of `compressAndTrim`: cut after the last non-zero intensity,
keeping one trailing zero entry when one exists (the `endIndex` scan and the
final `endIndex++`). -/
def trimTrail : List (Int × Int) → List (Int × Int)
  | [] => []
  | s :: rest =>
    if s.2 = 0 ∧ rest.all (fun q => q.2 == 0) = true then [s]
    else s :: trimTrail rest

/-- `compressAndTrim(segments)`: dedup adjacent equal intensities, drop the
leading zero run (`startIndex` scan; empty result when everything is zero),
then trim the tail. -/
def compressAndTrim (segments : List (Int × Int)) : List (Int × Int) :=
  match dedupAdjGo none segments with
  | [] => []
  | compressed => trimTrail (compressed.dropWhile (fun s => s.2 == 0))

/-- Adjacent breakpoints carry distinct intensities (invariant I2). -/
def SndNe (x y : Int × Int) : Prop := x.2 ≠ y.2

theorem dedupAdjGo_chain (l : List (Int × Int)) :
    ∀ lastI, List.Chain' SndNe (dedupAdjGo lastI l) ∧
      ∀ h ∈ (dedupAdjGo lastI l).head?, some h.2 ≠ lastI := by
  induction l with
  | nil => intro lastI; simp [dedupAdjGo]
  | cons s rest ih =>
    intro lastI
    rw [dedupAdjGo]
    by_cases hcond : some s.2 = lastI
    · rw [if_pos hcond]
      exact ih lastI
    · rw [if_neg hcond]
      rcases ih (some s.2) with ⟨hc, hh⟩
      constructor
      · rw [List.chain'_cons']
        refine ⟨?_, hc⟩
        intro b hb
        have := hh b hb
        intro he
        exact this (by rw [he])
      · intro h hh'
        simp only [List.head?_cons, Option.mem_def, Option.some_inj] at hh'
        subst hh'
        exact hcond

theorem dedupAdjGo_eq_self (l : List (Int × Int)) (hc : List.Chain' SndNe l) :
    ∀ lastI, (∀ h ∈ l.head?, some h.2 ≠ lastI) → dedupAdjGo lastI l = l := by
  induction l with
  | nil => intro lastI _; rfl
  | cons s rest ih =>
    intro lastI hh
    rw [dedupAdjGo]
    have hs : ¬ some s.2 = lastI := hh s (by simp)
    rw [if_neg hs]
    congr 1
    rcases List.chain'_cons'.mp hc with ⟨hhead, htail⟩
    apply ih htail
    intro h hh'
    have := hhead h hh'
    intro he
    injection he with hv
    exact this hv.symm

theorem chain'_dropWhile (p : Int × Int → Bool) (l : List (Int × Int))
    (hc : List.Chain' SndNe l) : List.Chain' SndNe (l.dropWhile p) := by
  induction l with
  | nil => simp [List.dropWhile]
  | cons s rest ih =>
    rw [List.dropWhile_cons]
    by_cases hp : p s = true
    · rw [if_pos hp]
      exact ih (List.chain'_cons'.mp hc).2
    · rw [if_neg hp]
      exact hc

theorem head?_dropWhile_false (p : Int × Int → Bool) (l : List (Int × Int)) :
    ∀ h ∈ (l.dropWhile p).head?, p h = false := by
  induction l with
  | nil => simp [List.dropWhile]
  | cons s rest ih =>
    rw [List.dropWhile_cons]
    by_cases hp : p s = true
    · rw [if_pos hp]
      exact ih
    · rw [if_neg hp]
      intro h hh
      simp only [List.head?_cons, Option.mem_def, Option.some_inj] at hh
      subst hh
      simpa using hp

theorem dropWhile_eq_self_of_head (p : Int × Int → Bool) (l : List (Int × Int))
    (hh : ∀ h ∈ l.head?, p h = false) : l.dropWhile p = l := by
  cases l with
  | nil => rfl
  | cons s rest =>
    rw [List.dropWhile_cons, if_neg (by simp [hh s (by simp)])]

theorem trimTrail_head? (l : List (Int × Int)) : (trimTrail l).head? = l.head? := by
  cases l with
  | nil => rfl
  | cons s rest =>
    rw [trimTrail]
    by_cases hcond : s.2 = 0 ∧ rest.all (fun q => q.2 == 0) = true
    · rw [if_pos hcond]
      rfl
    · rw [if_neg hcond]
      rfl

theorem trimTrail_eq_self (l : List (Int × Int)) (hc : List.Chain' SndNe l) :
    trimTrail l = l := by
  induction l with
  | nil => rfl
  | cons s rest ih =>
    rw [trimTrail]
    by_cases hcond : s.2 = 0 ∧ rest.all (fun q => q.2 == 0) = true
    · rw [if_pos hcond]
      cases rest with
      | nil => rfl
      | cons h t =>
        exfalso
        have hne : s.2 ≠ h.2 := (List.chain'_cons'.mp hc).1 h (by simp)
        have hh0 : h.2 = 0 := by
          have := List.all_eq_true.mp hcond.2 h (by simp)
          simpa using this
        exact hne (hcond.1.trans hh0.symm)
    · rw [if_neg hcond]
      congr 1
      exact ih (List.chain'_cons'.mp hc).2

theorem trimTrail_chain (l : List (Int × Int)) (hc : List.Chain' SndNe l) :
    List.Chain' SndNe (trimTrail l) := by
  induction l with
  | nil => simp [trimTrail]
  | cons s rest ih =>
    rw [trimTrail]
    by_cases hcond : s.2 = 0 ∧ rest.all (fun q => q.2 == 0) = true
    · rw [if_pos hcond]
      simp
    · rw [if_neg hcond]
      rcases List.chain'_cons'.mp hc with ⟨hhead, htail⟩
      rw [List.chain'_cons']
      refine ⟨?_, ih htail⟩
      intro b hb
      rw [trimTrail_head?] at hb
      exact hhead b hb

theorem compressAndTrim_chain (x : List (Int × Int)) :
    List.Chain' SndNe (compressAndTrim x) ∧
      ∀ h ∈ (compressAndTrim x).head?, h.2 ≠ 0 := by
  unfold compressAndTrim
  rcases hdd : dedupAdjGo none x with _ | ⟨c, cs⟩
  · simp
  · have hc : List.Chain' SndNe (c :: cs) := by
      have := (dedupAdjGo_chain x none).1
      rw [hdd] at this
      exact this
    constructor
    · exact trimTrail_chain _ (chain'_dropWhile _ _ hc)
    · intro h hh
      rw [trimTrail_head?] at hh
      have := head?_dropWhile_false (fun s => s.2 == 0) (c :: cs) h hh
      simpa using this

theorem compressAndTrim_idem_aux (x : List (Int × Int)) :
    compressAndTrim (compressAndTrim x) = compressAndTrim x := by
  rcases compressAndTrim_chain x with ⟨hc, hh⟩
  rcases hy : compressAndTrim x with _ | ⟨c, cs⟩
  · rfl
  · rw [hy] at hc hh
    unfold compressAndTrim
    rw [dedupAdjGo_eq_self _ hc none (by intro h _; exact Option.some_ne_none _)]
    show trimTrail (List.dropWhile (fun s => s.2 == 0) (c :: cs)) = c :: cs
    rw [dropWhile_eq_self_of_head _ _ (by
      intro h hh'
      have := hh h hh'
      simp [this])]
    exact trimTrail_eq_self _ hc

/-! ### Invariant and semantics of the store operations -/

namespace IntensitySegments

/-- Internal consistency: ascending key array matching the map's key set
exactly, duplicate-free map keys, no rebuild pending. -/
structure Inv (st : Store) : Prop where
  sorted : st.sortedKeys.Sorted (· < ·)
  mem_iff : ∀ k, k ∈ st.sortedKeys ↔ mapHas st.segmentMap k = true
  nodupKeys : (mapKeys st.segmentMap).Nodup
  clean : st.needsRebuild = false

/-- Stores reachable from a fresh instance by valid (`from < to`) calls. -/
inductive Reachable : Store → Prop where
  | base : Reachable emptyStore
  | step_add {st : Store} (f t a : Int) :
      Reachable st → f < t → Reachable (add st f t a)
  | step_set {st : Store} (f t a : Int) :
      Reachable st → f < t → Reachable (set st f t a)

/-- The step-function value tracked internally: the value stored at the
greatest key `≤ p`, or `0` below every key. -/
def stepAt (st : Store) (p : Int) : Int :=
  match lastKeyLE st.sortedKeys p with
  | none => 0
  | some k => mapGetD st.segmentMap k

theorem intensityF_eq_stepAt (st : Store) (p : Int) :
    intensityF st p = stepAt st p := by
  unfold intensityF stepValueOfList toList mapToSortedArray stepAt lastKeyLE lastSat
  rw [List.filter_map, List.getLast?_map]
  have hpred :
      ((fun q : Int × Int => decide (q.1 ≤ p)) ∘ fun key => (key, (mapGet st.segmentMap key).getD 0))
        = fun k => decide (k ≤ p) := by
    funext k
    rfl
  rw [hpred]
  cases (st.sortedKeys.filter fun k => decide (k ≤ p)).getLast? with
  | none => rfl
  | some k => rfl

theorem emptyStore_inv : Inv emptyStore := by
  constructor
  · simp [emptyStore]
  · intro k
    simp [emptyStore, mapHas]
  · simp [emptyStore, mapKeys]
  · rfl

theorem rebuild_markDirty (st : Store) :
    rebuildIfNeeded (markDirty st) =
      { st with sortedKeys := sortKeys (mapKeys st.segmentMap), needsRebuild := false } := by
  unfold rebuildIfNeeded markDirty
  simp

theorem placeholder_spec {st : Store} (hInv : Inv st) (x : Int)
    (hnot : mapHas st.segmentMap x = false) :
    Inv (rebuildIfNeeded (markDirty { st with segmentMap := mapSet st.segmentMap x 0 })) ∧
    (rebuildIfNeeded (markDirty { st with segmentMap := mapSet st.segmentMap x 0 })).segmentMap
        = mapSet st.segmentMap x 0 ∧
    ∀ k, k ∈ (rebuildIfNeeded
        (markDirty { st with segmentMap := mapSet st.segmentMap x 0 })).sortedKeys ↔
      (k ∈ st.sortedKeys ∨ k = x) := by
  rw [rebuild_markDirty]
  have hkeys : mapKeys (mapSet st.segmentMap x 0) = mapKeys st.segmentMap ++ [x] :=
    mapKeys_set_of_not_has _ _ _ hnot
  have hnd : (mapKeys (mapSet st.segmentMap x 0)).Nodup :=
    mapKeys_nodup_set _ _ _ hInv.nodupKeys
  have hmem : ∀ k, k ∈ sortKeys (mapKeys (mapSet st.segmentMap x 0)) ↔
      (k ∈ st.sortedKeys ∨ k = x) := by
    intro k
    rw [mem_sortKeys, hkeys, List.mem_append, List.mem_singleton,
      ← mapHas_iff_mem_keys, ← hInv.mem_iff]
  refine ⟨⟨?_, ?_, ?_, rfl⟩, rfl, hmem⟩
  · exact sortKeys_sorted_lt _ hnd
  · intro k
    rw [hmem k, hInv.mem_iff, mapHas_set]
    constructor
    · rintro (h | h)
      · simp [h]
      · simp [h]
    · intro h
      rcases (Bool.or_eq_true _ _).mp h with h | h
      · exact Or.inl h
      · exact Or.inr (by simpa using h)
  · exact hnd

theorem lastKeyLE_eq_some {l : List Int} (hs : l.Sorted (· < ·)) {m p : Int}
    (hmem : m ∈ l) (hle : m ≤ p) (hmax : ∀ k ∈ l, k ≤ p → k ≤ m) :
    lastKeyLE l p = some m := by
  unfold lastKeyLE
  apply lastSat_eq_some _ hs hmem (by simpa using hle)
  intro k hk hq
  exact hmax k hk (by simpa using hq)

theorem lastKeyLE_spec {l : List Int} (hs : l.Sorted (· < ·)) {m p : Int}
    (h : lastKeyLE l p = some m) :
    m ∈ l ∧ m ≤ p ∧ ∀ k ∈ l, k ≤ p → k ≤ m := by
  unfold lastKeyLE at h
  rcases lastSat_spec _ hs h with ⟨h1, h2, h3⟩
  exact ⟨h1, by simpa using h2, fun k hk hkp => h3 k hk (by simpa using hkp)⟩

theorem lastKeyLE_eq_none_iff (l : List Int) (p : Int) :
    lastKeyLE l p = none ↔ ∀ k ∈ l, ¬ k ≤ p := by
  unfold lastKeyLE
  rw [lastSat_eq_none_iff]
  constructor
  · intro h k hk
    simpa using h k hk
  · intro h k hk
    simpa using h k hk

theorem lastKeyLT_eq_some {l : List Int} (hs : l.Sorted (· < ·)) {m p : Int}
    (hmem : m ∈ l) (hle : m < p) (hmax : ∀ k ∈ l, k < p → k ≤ m) :
    lastKeyLT l p = some m := by
  unfold lastKeyLT
  apply lastSat_eq_some _ hs hmem (by simpa using hle)
  intro k hk hq
  exact hmax k hk (by simpa using hq)

theorem lastKeyLT_spec {l : List Int} (hs : l.Sorted (· < ·)) {m p : Int}
    (h : lastKeyLT l p = some m) :
    m ∈ l ∧ m < p ∧ ∀ k ∈ l, k < p → k ≤ m := by
  unfold lastKeyLT at h
  rcases lastSat_spec _ hs h with ⟨h1, h2, h3⟩
  exact ⟨h1, by simpa using h2, fun k hk hkp => h3 k hk (by simpa using hkp)⟩

theorem lastKeyLT_eq_none_iff (l : List Int) (p : Int) :
    lastKeyLT l p = none ↔ ∀ k ∈ l, ¬ k < p := by
  unfold lastKeyLT
  rw [lastSat_eq_none_iff]
  constructor
  · intro h k hk
    simpa using h k hk
  · intro h k hk
    simpa using h k hk

theorem stepAt_mem {st : Store} (hInv : Inv st) {k : Int}
    (hk : k ∈ st.sortedKeys) : stepAt st k = mapGetD st.segmentMap k := by
  unfold stepAt
  rw [lastKeyLE_eq_some hInv.sorted hk (le_refl k) (fun _ _ h => h)]

theorem handleAddStartPoint_spec {st : Store} (hInv : Inv st) (f a : Int) :
    Inv (handleAddStartPoint st f a) ∧
    (∀ k, k ∈ (handleAddStartPoint st f a).sortedKeys ↔ (k ∈ st.sortedKeys ∨ k = f)) ∧
    mapGet (handleAddStartPoint st f a).segmentMap f = some (stepAt st f + a) ∧
    (∀ k, k ≠ f → mapGet (handleAddStartPoint st f a).segmentMap k = mapGet st.segmentMap k) := by
  unfold handleAddStartPoint
  by_cases hhas : mapHas st.segmentMap f = true
  · rw [if_pos hhas]
    have hfmem : f ∈ st.sortedKeys := (hInv.mem_iff f).mpr hhas
    refine ⟨⟨hInv.sorted, ?_, ?_, hInv.clean⟩, ?_, ?_, ?_⟩
    · intro k
      rw [mapHas_set]
      by_cases hkf : k = f
      · subst hkf
        simp [hfmem, hhas]
      · have : (k == f) = false := by simpa using hkf
        rw [this, Bool.or_false]
        exact hInv.mem_iff k
    · show (mapKeys (mapSet st.segmentMap f (mapGetD st.segmentMap f + a))).Nodup
      rw [mapKeys_set_of_has _ _ _ hhas]
      exact hInv.nodupKeys
    · intro k
      constructor
      · exact Or.inl
      · rintro (h | h)
        · exact h
        · exact h ▸ hfmem
    · show mapGet (mapSet st.segmentMap f (mapGetD st.segmentMap f + a)) f = _
      rw [mapGet_set_self, stepAt_mem hInv hfmem]
    · intro k hk
      exact mapGet_set_ne _ _ _ _ hk
  · rw [if_neg hhas]
    dsimp only []
    have hhasf : mapHas st.segmentMap f = false := by simpa using hhas
    rcases placeholder_spec hInv f hhasf with ⟨hInv1, hm1, hmem1⟩
    set st1 := rebuildIfNeeded (markDirty { st with segmentMap := mapSet st.segmentMap f 0 }) with hst1
    have hf1 : f ∈ st1.sortedKeys := (hmem1 f).mpr (Or.inr rfl)
    have hfnot : f ∉ st.sortedKeys := by
      rw [hInv.mem_iff]
      simp [hhasf]
    rw [findClosestLeftPoint_eq_lastKeyLT _ _ hInv1.sorted]
    rcases hclp : lastKeyLT st1.sortedKeys f with _ | clp
    · -- no key strictly left of `f`: the original store has no key `≤ f` at all
      have hnone : ∀ k ∈ st1.sortedKeys, ¬ k < f := (lastKeyLT_eq_none_iff _ _).mp hclp
      have hstep : stepAt st f = 0 := by
        unfold stepAt
        rw [(lastKeyLE_eq_none_iff _ _).mpr ?_]
        intro k hk hkle
        rcases lt_or_eq_of_le hkle with hlt | heq
        · exact hnone k ((hmem1 k).mpr (Or.inl hk)) hlt
        · exact hfnot (heq ▸ hk)
      refine ⟨⟨hInv1.sorted, ?_, ?_, hInv1.clean⟩, ?_, ?_, ?_⟩
      · intro k
        rw [mapHas_set]
        by_cases hkf : k = f
        · subst hkf
          simp [hf1]
        · have : (k == f) = false := by simpa using hkf
          rw [this, Bool.or_false]
          exact hInv1.mem_iff k
      · show (mapKeys (mapSet st1.segmentMap f a)).Nodup
        have : mapHas st1.segmentMap f = true := (hInv1.mem_iff f).mp hf1
        rw [mapKeys_set_of_has _ _ _ this]
        exact hInv1.nodupKeys
      · intro k
        rw [hmem1 k]
      · show mapGet (mapSet st1.segmentMap f a) f = _
        rw [mapGet_set_self, hstep, zero_add]
      · intro k hk
        rw [mapGet_set_ne _ _ _ _ hk, hm1, mapGet_set_ne _ _ _ _ hk]
    · -- `clp` is the greatest key `< f`; it carries the old value at `f`
      rcases lastKeyLT_spec hInv1.sorted hclp with ⟨hclpmem, hclplt, hclpmax⟩
      have hclpne : clp ≠ f := ne_of_lt hclplt
      have hclpmem0 : clp ∈ st.sortedKeys := by
        rcases (hmem1 clp).mp hclpmem with h | h
        · exact h
        · exact absurd h hclpne
      have hgetclp : mapGet st1.segmentMap clp = mapGet st.segmentMap clp := by
        rw [hm1, mapGet_set_ne _ _ _ _ hclpne]
      have hstep : stepAt st f = mapGetD st.segmentMap clp := by
        unfold stepAt
        rw [lastKeyLE_eq_some hInv.sorted hclpmem0 (le_of_lt hclplt) ?_]
        intro k hk hkle
        rcases lt_or_eq_of_le hkle with hlt | heq
        · exact hclpmax k ((hmem1 k).mpr (Or.inl hk)) hlt
        · exact absurd (heq ▸ hk) hfnot
      refine ⟨⟨hInv1.sorted, ?_, ?_, hInv1.clean⟩, ?_, ?_, ?_⟩
      · intro k
        rw [mapHas_set]
        by_cases hkf : k = f
        · subst hkf
          simp [hf1]
        · have : (k == f) = false := by simpa using hkf
          rw [this, Bool.or_false]
          exact hInv1.mem_iff k
      · show (mapKeys (mapSet st1.segmentMap f (mapGetD st1.segmentMap clp + a))).Nodup
        have : mapHas st1.segmentMap f = true := (hInv1.mem_iff f).mp hf1
        rw [mapKeys_set_of_has _ _ _ this]
        exact hInv1.nodupKeys
      · intro k
        rw [hmem1 k]
      · show mapGet (mapSet st1.segmentMap f (mapGetD st1.segmentMap clp + a)) f = _
        rw [mapGet_set_self, hstep]
        unfold mapGetD
        rw [hgetclp]
      · intro k hk
        rw [mapGet_set_ne _ _ _ _ hk, hm1, mapGet_set_ne _ _ _ _ hk]

theorem foldl_bump_get (f t a : Int) :
    ∀ (L : List Int), L.Nodup → ∀ (m : List (Int × Int)) (k : Int),
      mapGet (L.foldl
          (fun m' key => if f < key ∧ key < t then mapSet m' key (mapGetD m' key + a) else m')
          m) k =
        if k ∈ L ∧ f < k ∧ k < t then some (mapGetD m k + a) else mapGet m k := by
  intro L
  induction L with
  | nil =>
    intro _ m k
    simp
  | cons x L' ih =>
    intro hnd m k
    rcases List.nodup_cons.mp hnd with ⟨hx, hnd'⟩
    rw [List.foldl_cons]
    by_cases hrngx : f < x ∧ x < t
    · rw [if_pos hrngx, ih hnd']
      by_cases hkx : k = x
      · subst hkx
        rw [if_neg (fun hcon => hx hcon.1), if_pos ⟨List.mem_cons_self _ _, hrngx⟩]
        exact mapGet_set_self _ _ _
      · have hgetne := mapGet_set_ne m x (mapGetD m x + a) k hkx
        by_cases hmem : k ∈ L' ∧ f < k ∧ k < t
        · rw [if_pos hmem, if_pos ⟨List.mem_cons_of_mem x hmem.1, hmem.2⟩]
          unfold mapGetD at hgetne ⊢
          rw [hgetne]
        · rw [if_neg hmem, hgetne, if_neg ?_]
          intro hcon
          rcases List.mem_cons.mp hcon.1 with h | h
          · exact hkx h
          · exact hmem ⟨h, hcon.2⟩
    · rw [if_neg hrngx, ih hnd']
      by_cases hkx : k = x
      · subst hkx
        rw [if_neg (fun hcon => hx hcon.1), if_neg (fun hcon => hrngx hcon.2)]
      · by_cases hmem : k ∈ L' ∧ f < k ∧ k < t
        · rw [if_pos hmem, if_pos ⟨List.mem_cons_of_mem x hmem.1, hmem.2⟩]
        · rw [if_neg hmem, if_neg ?_]
          intro hcon
          rcases List.mem_cons.mp hcon.1 with h | h
          · exact hkx h
          · exact hmem ⟨h, hcon.2⟩

theorem foldl_const_keys (u : List (Int × Int) → Int → Int) (cond : Int → Prop)
    [DecidablePred cond] :
    ∀ (L : List Int) (m : List (Int × Int)), (∀ key ∈ L, mapHas m key = true) →
      mapKeys (L.foldl (fun m' key => if cond key then mapSet m' key (u m' key) else m') m)
        = mapKeys m := by
  intro L
  induction L with
  | nil =>
    intro m _
    simp
  | cons x L' ih =>
    intro m hin
    rw [List.foldl_cons]
    have hkeys2 : mapKeys (if cond x then mapSet m x (u m x) else m) = mapKeys m := by
      by_cases hc : cond x
      · rw [if_pos hc, mapKeys_set_of_has _ _ _ (hin x (List.mem_cons_self _ _))]
      · rw [if_neg hc]
    rw [ih _ ?_, hkeys2]
    intro key hkey
    have := hin key (List.mem_cons_of_mem _ hkey)
    rw [mapHas_iff_mem_keys, hkeys2, ← mapHas_iff_mem_keys]
    exact this

theorem updateIntermediatePoints_spec {st : Store} (hInv : Inv st) (f t a : Int) :
    Inv (updateIntermediatePoints st f t a) ∧
    (updateIntermediatePoints st f t a).sortedKeys = st.sortedKeys ∧
    ∀ k, mapGet (updateIntermediatePoints st f t a).segmentMap k =
      if k ∈ st.sortedKeys ∧ f < k ∧ k < t then some (mapGetD st.segmentMap k + a)
      else mapGet st.segmentMap k := by
  have hnd : st.sortedKeys.Nodup := hInv.sorted.nodup
  have hget := foldl_bump_get f t a st.sortedKeys hnd st.segmentMap
  have hkeys : mapKeys (updateIntermediatePoints st f t a).segmentMap
      = mapKeys st.segmentMap := by
    show mapKeys (st.sortedKeys.foldl _ st.segmentMap) = _
    have := foldl_const_keys
      (fun m' key => mapGetD m' key + a) (fun key => f < key ∧ key < t)
      st.sortedKeys st.segmentMap
      (fun key hkey => (hInv.mem_iff key).mp hkey)
    exact this
  refine ⟨⟨hInv.sorted, ?_, ?_, hInv.clean⟩, rfl, hget⟩
  · intro k
    show k ∈ st.sortedKeys ↔ mapHas (updateIntermediatePoints st f t a).segmentMap k = true
    rw [mapHas_iff_mem_keys, hkeys, ← mapHas_iff_mem_keys]
    exact hInv.mem_iff k
  · show (mapKeys (updateIntermediatePoints st f t a).segmentMap).Nodup
    rw [hkeys]
    exact hInv.nodupKeys

theorem handleAddEndPoint_spec {st : Store} (hInv : Inv st) (t a : Int) :
    Inv (handleAddEndPoint st t a) ∧
    (∀ k, k ∈ (handleAddEndPoint st t a).sortedKeys ↔ (k ∈ st.sortedKeys ∨ k = t)) ∧
    (∀ k, k ≠ t → mapGet (handleAddEndPoint st t a).segmentMap k = mapGet st.segmentMap k) ∧
    (mapHas st.segmentMap t = true → handleAddEndPoint st t a = st) ∧
    (mapHas st.segmentMap t = false →
      mapGet (handleAddEndPoint st t a).segmentMap t =
        some (match lastKeyLT st.sortedKeys t with
              | some k0 => mapGetD st.segmentMap k0 - a
              | none => 0)) := by
  unfold handleAddEndPoint
  by_cases hhas : mapHas st.segmentMap t = true
  · rw [if_pos hhas]
    have htmem : t ∈ st.sortedKeys := (hInv.mem_iff t).mpr hhas
    refine ⟨hInv, ?_, fun _ _ => rfl, fun _ => rfl, ?_⟩
    · intro k
      constructor
      · exact Or.inl
      · rintro (h | h)
        · exact h
        · exact h ▸ htmem
    · intro hcon
      rw [hhas] at hcon
      cases hcon
  · rw [if_neg hhas]
    dsimp only []
    have hhast : mapHas st.segmentMap t = false := by simpa using hhas
    rcases placeholder_spec hInv t hhast with ⟨hInv1, hm1, hmem1⟩
    set st1 := rebuildIfNeeded (markDirty { st with segmentMap := mapSet st.segmentMap t 0 }) with hst1
    have ht1 : t ∈ st1.sortedKeys := (hmem1 t).mpr (Or.inr rfl)
    have htnot : t ∉ st.sortedKeys := by
      rw [hInv.mem_iff]
      simp [hhast]
    rw [findClosestLeftPoint_eq_lastKeyLT _ _ hInv1.sorted]
    have hsame : lastKeyLT st1.sortedKeys t = lastKeyLT st.sortedKeys t := by
      rcases hv : lastKeyLT st1.sortedKeys t with _ | k0
      · symm
        rw [lastKeyLT_eq_none_iff]
        intro k hk
        exact (lastKeyLT_eq_none_iff _ _).mp hv k ((hmem1 k).mpr (Or.inl hk))
      · rcases lastKeyLT_spec hInv1.sorted hv with ⟨hk0mem, hk0lt, hk0max⟩
        have hk0ne : k0 ≠ t := ne_of_lt hk0lt
        have hk0mem0 : k0 ∈ st.sortedKeys := by
          rcases (hmem1 k0).mp hk0mem with h | h
          · exact h
          · exact absurd h hk0ne
        symm
        apply lastKeyLT_eq_some hInv.sorted hk0mem0 hk0lt
        intro k hk hkt
        exact hk0max k ((hmem1 k).mpr (Or.inl hk)) hkt
    rcases hclp : lastKeyLT st.sortedKeys t with _ | clp
    · rw [hsame, hclp]
      refine ⟨⟨hInv1.sorted, ?_, ?_, hInv1.clean⟩, ?_, ?_, ?_, ?_⟩
      · intro k
        rw [mapHas_set]
        by_cases hkt : k = t
        · subst hkt
          simp [ht1]
        · have : (k == t) = false := by simpa using hkt
          rw [this, Bool.or_false]
          exact hInv1.mem_iff k
      · show (mapKeys (mapSet st1.segmentMap t 0)).Nodup
        have : mapHas st1.segmentMap t = true := (hInv1.mem_iff t).mp ht1
        rw [mapKeys_set_of_has _ _ _ this]
        exact hInv1.nodupKeys
      · intro k
        rw [hmem1 k]
      · intro k hk
        rw [mapGet_set_ne _ _ _ _ hk, hm1, mapGet_set_ne _ _ _ _ hk]
      · intro hcon
        rw [hcon] at hhas
        exact absurd rfl hhas
      · intro _
        rw [mapGet_set_self]
    · rw [hsame, hclp]
      rcases lastKeyLT_spec hInv.sorted hclp with ⟨hclpmem, hclplt, _⟩
      have hclpne : clp ≠ t := ne_of_lt hclplt
      refine ⟨⟨hInv1.sorted, ?_, ?_, hInv1.clean⟩, ?_, ?_, ?_, ?_⟩
      · intro k
        rw [mapHas_set]
        by_cases hkt : k = t
        · subst hkt
          simp [ht1]
        · have : (k == t) = false := by simpa using hkt
          rw [this, Bool.or_false]
          exact hInv1.mem_iff k
      · show (mapKeys (mapSet st1.segmentMap t (mapGetD st1.segmentMap clp - a))).Nodup
        have : mapHas st1.segmentMap t = true := (hInv1.mem_iff t).mp ht1
        rw [mapKeys_set_of_has _ _ _ this]
        exact hInv1.nodupKeys
      · intro k
        rw [hmem1 k]
      · intro k hk
        rw [mapGet_set_ne _ _ _ _ hk, hm1, mapGet_set_ne _ _ _ _ hk]
      · intro hcon
        rw [hcon] at hhas
        exact absurd rfl hhas
      · intro _
        rw [mapGet_set_self]
        have : mapGetD st1.segmentMap clp = mapGetD st.segmentMap clp := by
          unfold mapGetD
          rw [hm1, mapGet_set_ne _ _ _ _ hclpne]
        rw [this]

theorem lastKeyLE_congr {l : List Int} {p q : Int} (h : ∀ k ∈ l, k ≤ p ↔ k ≤ q) :
    lastKeyLE l p = lastKeyLE l q := by
  unfold lastKeyLE lastSat
  congr 1
  apply List.filter_congr
  intro x hx
  rw [decide_eq_decide]
  exact h x hx

theorem getD_of_get_eq {m : List (Int × Int)} {k v : Int}
    (h : mapGet m k = some v) : mapGetD m k = v := by
  unfold mapGetD
  rw [h]
  rfl

theorem stepAt_of_lastKeyLE {st : Store} {p m : Int}
    (h : lastKeyLE st.sortedKeys p = some m) :
    stepAt st p = mapGetD st.segmentMap m := by
  unfold stepAt
  rw [h]

theorem stepAt_of_lastKeyLE_none {st : Store} {p : Int}
    (h : lastKeyLE st.sortedKeys p = none) : stepAt st p = 0 := by
  unfold stepAt
  rw [h]

theorem stepAt_congr {st : Store} {p q : Int}
    (h : lastKeyLE st.sortedKeys p = lastKeyLE st.sortedKeys q) :
    stepAt st p = stepAt st q := by
  unfold stepAt
  rw [h]

theorem add_spec {st : Store} (hInv : Inv st) (f t a : Int) (hft : f < t) :
    Inv (add st f t a) ∧
    ∀ p, stepAt (add st f t a) p = stepAt st p + (if f ≤ p ∧ p < t then a else 0) := by
  have hA := handleAddStartPoint_spec hInv f a
  set stA := handleAddStartPoint st f a with hstA
  obtain ⟨hInvA, hmemA, hgetAf, hgetAne⟩ := hA
  have hB := updateIntermediatePoints_spec hInvA f t a
  set stB := updateIntermediatePoints stA f t a with hstB
  obtain ⟨hInvB, hkeysB, hgetB⟩ := hB
  have hC := handleAddEndPoint_spec hInvB t a
  set stC := handleAddEndPoint stB t a with hstC
  obtain ⟨hInvC, hmemC, hgetCne, hCsame, hCnew⟩ := hC
  have hadd : add st f t a = stC := rfl
  have hfne : f ≠ t := ne_of_lt hft
  have hmemB : ∀ k, k ∈ stB.sortedKeys ↔ (k ∈ st.sortedKeys ∨ k = f) := by
    intro k
    rw [hkeysB]
    exact hmemA k
  have hmemCall : ∀ k, k ∈ stC.sortedKeys ↔ (k ∈ st.sortedKeys ∨ k = f ∨ k = t) := by
    intro k
    rw [hmemC k, hmemB k]
    tauto
  -- value of the final map away from `f` and `t`
  have hvalB : ∀ k, k ≠ f → mapGet stB.segmentMap k =
      if k ∈ st.sortedKeys ∧ f < k ∧ k < t then some (mapGetD st.segmentMap k + a)
      else mapGet st.segmentMap k := by
    intro k hk
    rw [hgetB k]
    by_cases hcond : k ∈ st.sortedKeys ∧ f < k ∧ k < t
    · rw [if_pos ⟨(hmemA k).mpr (Or.inl hcond.1), hcond.2⟩, if_pos hcond]
      congr 2
      unfold mapGetD
      rw [hgetAne k hk]
    · by_cases hcond2 : k ∈ stA.sortedKeys ∧ f < k ∧ k < t
      · exfalso
        rcases (hmemA k).mp hcond2.1 with h | h
        · exact hcond ⟨h, hcond2.2⟩
        · exact hk h
      · rw [if_neg hcond2, if_neg hcond, hgetAne k hk]
  have hvalBf : mapGet stB.segmentMap f = some (stepAt st f + a) := by
    rw [hgetB f, if_neg (by rintro ⟨_, hlt, _⟩; exact lt_irrefl f hlt)]
    exact hgetAf
  have hvalCf : f ≠ t → mapGet stC.segmentMap f = some (stepAt st f + a) := by
    intro hne
    rw [hgetCne f hne]
    exact hvalBf
  have hvalC_old : ∀ k, k ≠ f → k ≠ t → ¬ (f < k ∧ k < t) →
      mapGet stC.segmentMap k = mapGet st.segmentMap k := by
    intro k hkf hkt hrng
    rw [hgetCne k hkt, hvalB k hkf, if_neg (by rintro ⟨_, h2⟩; exact hrng h2)]
  have hvalC_mid : ∀ k, k ∈ st.sortedKeys → k ≠ f → k ≠ t → f < k → k < t →
      mapGet stC.segmentMap k = some (mapGetD st.segmentMap k + a) := by
    intro k hkmem hkf hkt h1 h2
    rw [hgetCne k hkt, hvalB k hkf, if_pos ⟨hkmem, h1, h2⟩]
  refine ⟨hadd ▸ hInvC, ?_⟩
  intro p
  rw [hadd]
  unfold stepAt
  rcases hm : lastKeyLE stC.sortedKeys p with _ | m
  · -- no breakpoint at or left of `p` in the final store: same in the original
    have hnone := (lastKeyLE_eq_none_iff _ _).mp hm
    have hpf : ¬ f ≤ p := fun hc => hnone f ((hmemCall f).mpr (Or.inr (Or.inl rfl))) hc
    rw [(lastKeyLE_eq_none_iff st.sortedKeys p).mpr
      (fun k hk => hnone k ((hmemCall k).mpr (Or.inl hk)))]
    rw [if_neg (by rintro ⟨h1, _⟩; exact hpf h1)]
    rfl
  · rcases lastKeyLE_spec hInvC.sorted hm with ⟨hmmem, hmp, hmmax⟩
    show mapGetD stC.segmentMap m = stepAt st p + (if f ≤ p ∧ p < t then a else 0)
    by_cases hpt : t ≤ p
    · -- `p` at or right of `t`: the function is unchanged there
      have htmem : t ∈ stC.sortedKeys := (hmemCall t).mpr (Or.inr (Or.inr rfl))
      have htm : t ≤ m := hmmax t htmem hpt
      have hnotrng : ¬ (f ≤ p ∧ p < t) := by rintro ⟨_, h2⟩; omega
      rw [if_neg hnotrng, add_zero]
      by_cases hmt : m = t
      · -- the last breakpoint is `t` itself
        subst hmt
        have hcongr : stepAt st p = stepAt st m := by
          apply stepAt_congr
          apply lastKeyLE_congr
          intro k hk
          constructor
          · intro hkp
            exact hmmax k ((hmemCall k).mpr (Or.inl hk)) hkp
          · intro hkm
            omega
        rw [hcongr]
        by_cases hhasBt : mapHas stB.segmentMap m = true
        · -- `to` already existed: `handleAddEndPoint` was the identity
          have hmK : m ∈ st.sortedKeys := by
            have : m ∈ stB.sortedKeys := (hInvB.mem_iff m).mpr hhasBt
            rcases (hmemB m).mp this with h | h
            · exact h
            · exact absurd h.symm hfne
          rw [hCsame hhasBt]
          have hBval : mapGet stB.segmentMap m = mapGet st.segmentMap m := by
            rw [hvalB m (fun hc => hfne hc.symm),
              if_neg (by rintro ⟨_, _, hlt⟩; exact lt_irrefl m hlt)]
          rw [stepAt_mem hInv hmK]
          unfold mapGetD
          rw [hBval]
        · -- `to` was created: its value came from `closestLeft - amount`
          have hhasBt' : mapHas stB.segmentMap m = false := by simpa using hhasBt
          have hmnotB : m ∉ stB.sortedKeys := by
            rw [hInvB.mem_iff]
            simp [hhasBt']
          have hmnotK : m ∉ st.sortedKeys := fun hc => hmnotB ((hmemB m).mpr (Or.inl hc))
          have hval := hCnew hhasBt'
          have hfB : f ∈ stB.sortedKeys := (hmemB f).mpr (Or.inr rfl)
          rcases hk0 : lastKeyLT stB.sortedKeys m with _ | k0
          · exfalso
            exact (lastKeyLT_eq_none_iff _ _).mp hk0 f hfB hft
          · rw [hk0] at hval
            have hval' : mapGet stC.segmentMap m = some (mapGetD stB.segmentMap k0 - a) := hval
            rcases lastKeyLT_spec hInvB.sorted hk0 with ⟨hk0mem, hk0lt, hk0max⟩
            have hfk0 : f ≤ k0 := hk0max f hfB hft
            rw [getD_of_get_eq hval']
            by_cases hk0f : k0 = f
            · -- left neighbour of `to` is `from` itself
              subst hk0f
              rw [getD_of_get_eq hvalBf]
              have hstep : stepAt st m = stepAt st k0 := by
                apply stepAt_congr
                apply lastKeyLE_congr
                intro k hk
                constructor
                · intro hkm
                  have hkne : k ≠ m := fun hc => hmnotK (hc ▸ hk)
                  have hklt : k < m := lt_of_le_of_ne hkm hkne
                  exact hk0max k ((hmemB k).mpr (Or.inl hk)) hklt
                · intro hkk0
                  omega
              rw [hstep]
              omega
            · -- left neighbour of `to` is an interior key, already bumped
              have hk0K : k0 ∈ st.sortedKeys := by
                rcases (hmemB k0).mp hk0mem with h | h
                · exact h
                · exact absurd h hk0f
              have hk0gt : f < k0 := lt_of_le_of_ne hfk0 (fun hc => hk0f hc.symm)
              have hBk0 : mapGet stB.segmentMap k0 = some (mapGetD st.segmentMap k0 + a) := by
                rw [hvalB k0 hk0f, if_pos ⟨hk0K, hk0gt, hk0lt⟩]
              rw [getD_of_get_eq hBk0]
              have hstep : stepAt st m = mapGetD st.segmentMap k0 := by
                apply stepAt_of_lastKeyLE
                apply lastKeyLE_eq_some hInv.sorted hk0K (le_of_lt hk0lt)
                intro k hk hkm
                have hkne : k ≠ m := fun hc => hmnotK (hc ▸ hk)
                exact hk0max k ((hmemB k).mpr (Or.inl hk)) (lt_of_le_of_ne hkm hkne)
              rw [hstep]
              omega
      · -- the last breakpoint is strictly right of `t`: untouched by the call
        have hmgt : t < m := lt_of_le_of_ne htm (fun hc => hmt hc.symm)
        have hmK : m ∈ st.sortedKeys := by
          rcases (hmemCall m).mp hmmem with h | h | h
          · exact h
          · exfalso; omega
          · exact absurd h hmt
        have hval : mapGet stC.segmentMap m = mapGet st.segmentMap m := by
          apply hvalC_old m (by omega) hmt
          rintro ⟨_, hlt⟩
          omega
        have hstep : stepAt st p = mapGetD st.segmentMap m := by
          apply stepAt_of_lastKeyLE
          apply lastKeyLE_eq_some hInv.sorted hmK hmp
          intro k hk hkp
          exact hmmax k ((hmemCall k).mpr (Or.inl hk)) hkp
        rw [hstep]
        unfold mapGetD
        rw [hval]
    · -- `p < t`
      by_cases hpf : f ≤ p
      · -- `p` inside `[from, to)`: the function gained `a`
        rw [if_pos ⟨hpf, by omega⟩]
        have hfmem : f ∈ stC.sortedKeys := (hmemCall f).mpr (Or.inr (Or.inl rfl))
        have hfm : f ≤ m := hmmax f hfmem hpf
        have hmt : m ≠ t := by omega
        by_cases hmf : m = f
        · subst hmf
          rw [getD_of_get_eq (hvalCf hfne)]
          have hstep : stepAt st p = stepAt st m := by
            apply stepAt_congr
            apply lastKeyLE_congr
            intro k hk
            constructor
            · intro hkp
              exact hmmax k ((hmemCall k).mpr (Or.inl hk)) hkp
            · intro hkm
              omega
          rw [hstep]
        · have hfmlt : f < m := lt_of_le_of_ne hfm (fun hc => hmf hc.symm)
          have hmK : m ∈ st.sortedKeys := by
            rcases (hmemCall m).mp hmmem with h | h | h
            · exact h
            · exact absurd h hmf
            · exact absurd h hmt
          have hval : mapGet stC.segmentMap m = some (mapGetD st.segmentMap m + a) :=
            hvalC_mid m hmK hmf hmt hfmlt (by omega)
          have hstep : stepAt st p = mapGetD st.segmentMap m := by
            apply stepAt_of_lastKeyLE
            apply lastKeyLE_eq_some hInv.sorted hmK hmp
            intro k hk hkp
            exact hmmax k ((hmemCall k).mpr (Or.inl hk)) hkp
          rw [getD_of_get_eq hval, hstep]
      · -- `p` strictly left of `from`: untouched
        rw [if_neg (by rintro ⟨h1, _⟩; exact hpf h1), add_zero]
        have hmf : m ≠ f := by
          intro hc
          subst hc
          exact hpf hmp
        have hmt2 : m ≠ t := by omega
        have hmK : m ∈ st.sortedKeys := by
          rcases (hmemCall m).mp hmmem with h | h | h
          · exact h
          · exact absurd h hmf
          · exact absurd h hmt2
        have hval : mapGet stC.segmentMap m = mapGet st.segmentMap m := by
          apply hvalC_old m hmf hmt2
          rintro ⟨h1, _⟩
          omega
        have hstep : stepAt st p = mapGetD st.segmentMap m := by
          apply stepAt_of_lastKeyLE
          apply lastKeyLE_eq_some hInv.sorted hmK hmp
          intro k hk hkp
          exact hmmax k ((hmemCall k).mpr (Or.inl hk)) hkp
        rw [hstep]
        unfold mapGetD
        rw [hval]

theorem store_rebuilt_inv (m : List (Int × Int)) (hnd : (mapKeys m).Nodup) :
    Inv ⟨m, sortKeys (mapKeys m), false⟩ := by
  refine ⟨sortKeys_sorted_lt _ hnd, ?_, hnd, rfl⟩
  intro k
  show k ∈ sortKeys (mapKeys m) ↔ _
  rw [mem_sortKeys, mapHas_iff_mem_keys]

theorem inv_mapSet_has {st : Store} (hInv : Inv st) (k v : Int)
    (hk : mapHas st.segmentMap k = true) :
    Inv { st with segmentMap := mapSet st.segmentMap k v } := by
  refine ⟨hInv.sorted, ?_, ?_, hInv.clean⟩
  · intro k'
    show k' ∈ st.sortedKeys ↔ mapHas (mapSet st.segmentMap k v) k' = true
    rw [mapHas_set]
    by_cases hkk : k' = k
    · subst hkk
      simp [hk, (hInv.mem_iff k').mpr hk]
    · have : (k' == k) = false := by simpa using hkk
      rw [this, Bool.or_false]
      exact hInv.mem_iff k'
  · show (mapKeys (mapSet st.segmentMap k v)).Nodup
    rw [mapKeys_set_of_has _ _ _ hk]
    exact hInv.nodupKeys

theorem inv_map_keys_eq {st : Store} (hInv : Inv st) (m' : List (Int × Int))
    (hkeys : mapKeys m' = mapKeys st.segmentMap) :
    Inv { st with segmentMap := m' } := by
  refine ⟨hInv.sorted, ?_, ?_, hInv.clean⟩
  · intro k
    show k ∈ st.sortedKeys ↔ mapHas m' k = true
    rw [mapHas_iff_mem_keys, hkeys, ← mapHas_iff_mem_keys]
    exact hInv.mem_iff k
  · show (mapKeys m').Nodup
    rw [hkeys]
    exact hInv.nodupKeys

/-- The conditional placeholder insert that both `set` branches perform for
`from` and `to`: insert key `x` with value `0` and mark dirty when absent. -/
def ensureKey (st : Store) (x : Int) : Store :=
  if mapHas st.segmentMap x then st
  else markDirty { st with segmentMap := mapSet st.segmentMap x 0 }

/-- The remainder of `set` after `rebuildIfNeeded()`: overwrite `from`,
overwrite the interior keys, then write the `to` breakpoint from
`findClosestLeftPoint`. -/
def setTail (st3 : Store) (f t a : Int) : Store :=
  let st4 := { st3 with segmentMap := mapSet st3.segmentMap f a }
  let st5 := { st4 with
    segmentMap := st4.sortedKeys.foldl
      (fun m key => if f < key ∧ key < t then mapSet m key a else m) st4.segmentMap }
  match findClosestLeftPoint st5.sortedKeys t with
  | some clp =>
      if clp < f then
        { st5 with segmentMap := mapSet st5.segmentMap t (mapGetD st5.segmentMap clp) }
      else { st5 with segmentMap := mapSet st5.segmentMap t 0 }
  | none => { st5 with segmentMap := mapSet st5.segmentMap t 0 }

/-- `set` factors as: two placeholder inserts, a rebuild, then the tail. -/
theorem set_eq_prep_tail (st : Store) (f t a : Int) :
    set st f t a = setTail (rebuildIfNeeded (ensureKey (ensureKey st f) t)) f t a := rfl

theorem ensureKey_of_has (st : Store) (x : Int) (h : mapHas st.segmentMap x = true) :
    ensureKey st x = st := by
  unfold ensureKey
  rw [if_pos h]

theorem ensureKey_of_not_has (st : Store) (x : Int) (h : mapHas st.segmentMap x = false) :
    ensureKey st x = markDirty { st with segmentMap := mapSet st.segmentMap x 0 } := by
  unfold ensureKey
  rw [if_neg (by simp [h])]

theorem setPrep_spec {st : Store} (hInv : Inv st) (f t : Int) :
    Inv (rebuildIfNeeded (ensureKey (ensureKey st f) t)) ∧
    mapHas (rebuildIfNeeded (ensureKey (ensureKey st f) t)).segmentMap f = true ∧
    mapHas (rebuildIfNeeded (ensureKey (ensureKey st f) t)).segmentMap t = true := by
  by_cases hf : mapHas st.segmentMap f = true
  · rw [ensureKey_of_has st f hf]
    by_cases ht : mapHas st.segmentMap t = true
    · rw [ensureKey_of_has st t ht]
      have hre : rebuildIfNeeded st = st := by
        unfold rebuildIfNeeded
        rw [hInv.clean]
        rfl
      rw [hre]
      exact ⟨hInv, hf, ht⟩
    · have ht' : mapHas st.segmentMap t = false := by simpa using ht
      rw [ensureKey_of_not_has st t ht', rebuild_markDirty]
      refine ⟨?_, ?_, ?_⟩
      · exact store_rebuilt_inv _ (mapKeys_nodup_set _ _ _ hInv.nodupKeys)
      · show mapHas (mapSet st.segmentMap t 0) f = true
        rw [mapHas_set, hf, Bool.true_or]
      · show mapHas (mapSet st.segmentMap t 0) t = true
        rw [mapHas_eq_isSome, mapGet_set_self]
        rfl
  · have hf' : mapHas st.segmentMap f = false := by simpa using hf
    rw [ensureKey_of_not_has st f hf']
    have hm1f : mapHas (mapSet st.segmentMap f 0) f = true := by
      rw [mapHas_eq_isSome, mapGet_set_self]
      rfl
    by_cases ht1 : mapHas (mapSet st.segmentMap f 0) t = true
    · rw [ensureKey_of_has _ t ht1, rebuild_markDirty]
      refine ⟨?_, ?_, ?_⟩
      · exact store_rebuilt_inv _ (mapKeys_nodup_set _ _ _ hInv.nodupKeys)
      · exact hm1f
      · exact ht1
    · have ht1' : mapHas (mapSet st.segmentMap f 0) t = false := by simpa using ht1
      rw [ensureKey_of_not_has _ t ht1', rebuild_markDirty]
      refine ⟨?_, ?_, ?_⟩
      · exact store_rebuilt_inv _
          (mapKeys_nodup_set _ _ _ (mapKeys_nodup_set _ _ _ hInv.nodupKeys))
      · show mapHas (mapSet (mapSet st.segmentMap f 0) t 0) f = true
        rw [mapHas_set, hm1f, Bool.true_or]
      · show mapHas (mapSet (mapSet st.segmentMap f 0) t 0) t = true
        rw [mapHas_eq_isSome, mapGet_set_self]
        rfl

theorem setTail_inv {st3 : Store} (hInv3 : Inv st3) (f t a : Int)
    (hhf : mapHas st3.segmentMap f = true) (hht : mapHas st3.segmentMap t = true) :
    Inv (setTail st3 f t a) := by
  unfold setTail
  dsimp only []
  set m5 := List.foldl (fun m key => if f < key ∧ key < t then mapSet m key a else m)
    (mapSet st3.segmentMap f a) st3.sortedKeys with hm5
  have hht4 : mapHas (mapSet st3.segmentMap f a) t = true := by
    rw [mapHas_set, hht, Bool.true_or]
  have hkeys5 : mapKeys m5 = mapKeys (mapSet st3.segmentMap f a) := by
    rw [hm5]
    apply foldl_const_keys (fun _ _ => a) (fun key => f < key ∧ key < t)
    intro key hkey
    rw [mapHas_set]
    rw [(hInv3.mem_iff key).mp hkey, Bool.true_or]
  have hInv5 : Inv { st3 with segmentMap := m5 } := by
    apply inv_map_keys_eq hInv3
    rw [hkeys5, mapKeys_set_of_has _ _ _ hhf]
  have hht5 : mapHas m5 t = true := by
    rw [mapHas_iff_mem_keys, hkeys5, ← mapHas_iff_mem_keys]
    exact hht4
  rcases hclp : findClosestLeftPoint st3.sortedKeys t with _ | clp
  · exact inv_mapSet_has hInv5 t 0 hht5
  · dsimp only []
    by_cases hcl : clp < f
    · rw [if_pos hcl]
      exact inv_mapSet_has hInv5 t _ hht5
    · rw [if_neg hcl]
      exact inv_mapSet_has hInv5 t 0 hht5

theorem set_inv {st : Store} (hInv : Inv st) (f t a : Int) :
    Inv (set st f t a) := by
  rw [set_eq_prep_tail]
  rcases setPrep_spec hInv f t with ⟨h3, hf3, ht3⟩
  exact setTail_inv h3 f t a hf3 ht3

theorem reachable_inv {st : Store} (h : Reachable st) : Inv st := by
  induction h with
  | base => exact emptyStore_inv
  | step_add f t a _ hft ih => exact (add_spec ih f t a hft).1
  | step_set f t a _ hft ih => exact set_inv ih f t a

/-! ### The public operations: validation before any mutation -/

/-- Projection of a validated JS value into the integer store model
(non-finite numbers that pass validation lie outside the integer-valued
store model; only the error path below depends on the projection). -/
def jsToInt : JSVal → Int
  | .num (.fin v) => v
  | _ => 0

/-- `add` as called from outside: `validateInput` runs first and throws
before any statement touches the store, so on failure the state is returned
unchanged alongside the error. -/
def addRun (st : Store) (f t a : JSVal) : Store × Option ValErr :=
  match validateInput f t a with
  | .error e => (st, some e)
  | .ok _ => (add st (jsToInt f) (jsToInt t) (jsToInt a), none)

/-- `set` as called from outside, analogous to `addRun`. -/
def setRun (st : Store) (f t a : JSVal) : Store × Option ValErr :=
  match validateInput f t a with
  | .error e => (st, some e)
  | .ok _ => (set st (jsToInt f) (jsToInt t) (jsToInt a), none)

/-! ### The claims -/

/-- C1: for every store reachable by valid `add`/`set` calls and every valid
`from < to` and finite `amount`, `add(from, to, amount)` raises the
represented step function by `amount` at every point of `[from, to)` and
leaves it unchanged outside. -/
theorem add_semantics {st : Store} (hst : Reachable st) (f t a : Int)
    (hft : f < t) (p : Int) :
    intensityF (add st f t a) p =
      intensityF st p + (if f ≤ p ∧ p < t then a else 0) := by
  rw [intensityF_eq_stepAt, intensityF_eq_stepAt]
  exact (add_spec (reachable_inv hst) f t a hft).2 p

theorem add_semantics_witness :
    intensityF (add emptyStore 10 30 1) 15 =
      intensityF emptyStore 15 + (if (10:Int) ≤ 15 ∧ (15:Int) < 30 then 1 else 0) :=
  add_semantics Reachable.base 10 30 1 (by decide) 15

/-- C2 (code evaluation at the failing input): after `add(10,50,1)` the
function is `1` on `[10,50)`; the repository's own test expects
`set(20,40,1)` to leave `[[10,1],[50,0]]`, but the code stores a `0` at the
`to` breakpoint (its `closestLeftBeforeTo < from` guard can never fire), so
the rendered list is `[[10,1],[20,1],[40,0],[50,0]]` and the intensity at
`45` drops from `1` to `0` although `45` lies outside `[20,40)`. -/
theorem set_drops_right_value_eval :
    toList (set (add emptyStore 10 50 1) 20 40 1)
        = [(10, 1), (20, 1), (40, 0), (50, 0)] ∧
    intensityF (set (add emptyStore 10 50 1) 20 40 1) 45 = 0 ∧
    intensityF (add emptyStore 10 50 1) 45 = 1 :=
  ⟨rfl, rfl, rfl⟩

/-- C3 (code evaluation at the failing input): `toString` performs no
compression, so after `add(10,20,1)` and `add(20,30,1)` the rendered list
keeps two adjacent breakpoints of equal intensity `1`, violating invariant
I2 which the claim asserts for all call sequences. -/
theorem rendered_invariants_violated_eval :
    toList (add (add emptyStore 10 20 1) 20 30 1) = [(10, 1), (20, 1), (30, 0)] ∧
    ¬ List.Chain' SndNe (toList (add (add emptyStore 10 20 1) 20 30 1)) := by
  have he : toList (add (add emptyStore 10 20 1) 20 30 1)
      = [((10:Int), (1:Int)), (20, 1), (30, 0)] := rfl
  refine ⟨he, ?_⟩
  rw [he]
  intro hc
  exact (List.chain'_cons.mp hc).1 rfl

/-- C4: the three documentation scenarios render exactly as the claim
states. -/
theorem doc_scenario_renders :
    render (add emptyStore 10 30 1) = "[[10,1],[30,0]]" ∧
    render (add (add emptyStore 10 30 1) 20 40 1)
        = "[[10,1],[20,2],[30,1],[40,0]]" ∧
    render (add (add (add emptyStore 10 30 1) 20 40 1) 10 40 (-2))
        = "[[10,-1],[20,0],[30,-1],[40,0]]" :=
  ⟨rfl, rfl, rfl⟩

/-- C5 (code evaluation at the failing input): `add(10,20,5)` then
`add(10,20,-5)` renders as `"[[10,0],[20,0]]"`, not the `"[]"` the claim
(and the repository's cancellation test) expects — the store's `toString`
never trims zero breakpoints. -/
theorem cancellation_renders_zeros_eval :
    render (add (add emptyStore 10 20 5) 10 20 (-5)) = "[[10,0],[20,0]]" ∧
    "[[10,0],[20,0]]" ≠ "[]" :=
  ⟨rfl, by decide⟩

/-- C6: the compression-and-trim pass of the breakpoint-list variant is
idempotent on every input list. -/
theorem compressAndTrim_idempotent (x : List (Int × Int)) :
    compressAndTrim (compressAndTrim x) = compressAndTrim x :=
  compressAndTrim_idem_aux x

/-- C7 (code evaluation at the failing input): starting from the empty store
(rendered `"[]"`), `add(5,6,1)` followed by `add(5,6,-1)` leaves the
materialized zero breakpoints behind, so the rendered output is
`"[[5,0],[6,0]]"` instead of the pre-call `"[]"`. -/
theorem add_undo_not_restored_eval :
    render emptyStore = "[]" ∧
    render (add (add emptyStore 5 6 1) 5 6 (-1)) = "[[5,0],[6,0]]" :=
  ⟨rfl, rfl⟩

/-- C8 counterexample: a NaN amount is accepted by `validateInput` — it is a
number for `typeof`, NaN comparisons are false, and it is not `Infinity` —
contradicting the claim that NaN is rejected. -/
theorem validateInput_nan_accepted :
    validateInput (.num (.fin 10)) (.num (.fin 30)) (.num .nan) = .ok () := rfl

/-- C8 (amended): `validateInput` fails with `InvalidType` exactly when some
argument is not a number (NaN and the infinities count as numbers); otherwise
with `InvalidRange` exactly when `from >= to` under JS comparison (false
whenever either side is NaN); otherwise with `InvalidAmount` exactly when the
amount is `±Infinity`; in every other case — including NaN arguments — it
succeeds. -/
theorem validateInput_characterization (f t a : JSVal) :
    (validateInput f t a = .error .invalidType ↔
      ¬ (isNumber f = true ∧ isNumber t = true ∧ isNumber a = true)) ∧
    (validateInput f t a = .error .invalidRange ↔
      (isNumber f = true ∧ isNumber t = true ∧ isNumber a = true) ∧
        jsGeVal f t = true) ∧
    (validateInput f t a = .error .invalidAmount ↔
      (isNumber f = true ∧ isNumber t = true ∧ isNumber a = true) ∧
        jsGeVal f t = false ∧ isInfinite a = true) ∧
    (validateInput f t a = .ok () ↔
      (isNumber f = true ∧ isNumber t = true ∧ isNumber a = true) ∧
        jsGeVal f t = false ∧ isInfinite a = false) := by
  unfold validateInput
  by_cases h1 : isNumber f = true ∧ isNumber t = true ∧ isNumber a = true
  · rw [if_neg (by simpa using h1)]
    by_cases h2 : jsGeVal f t = true
    · rw [if_pos h2]
      refine ⟨?_, ?_, ?_, ?_⟩ <;> constructor <;> intro h <;> simp_all
    · rw [if_neg h2]
      by_cases h3 : isInfinite a = true
      · rw [if_pos h3]
        refine ⟨?_, ?_, ?_, ?_⟩ <;> constructor <;> intro h <;> simp_all
      · rw [if_neg h3]
        refine ⟨?_, ?_, ?_, ?_⟩ <;> constructor <;> intro h <;> simp_all
  · rw [if_pos (by simpa using h1)]
    refine ⟨?_, ?_, ?_, ?_⟩ <;> constructor <;> intro h <;> simp_all

/-- C9: `add` and `set` are atomic on failure — `validateInput` runs before
any statement that touches the store, so whenever it raises an error the
returned state is exactly the pre-call state. -/
theorem ops_atomic_on_failure (st : Store) (f t a : JSVal) (e : ValErr)
    (h : validateInput f t a = .error e) :
    addRun st f t a = (st, some e) ∧ setRun st f t a = (st, some e) := by
  unfold addRun setRun
  rw [h]
  exact ⟨rfl, rfl⟩

theorem ops_atomic_on_failure_witness :
    validateInput (.num (.fin 30)) (.num (.fin 10)) (.num (.fin 1))
        = .error .invalidRange ∧
    addRun emptyStore (.num (.fin 30)) (.num (.fin 10)) (.num (.fin 1))
        = (emptyStore, some .invalidRange) ∧
    setRun emptyStore (.num (.fin 30)) (.num (.fin 10)) (.num (.fin 1))
        = (emptyStore, some .invalidRange) := by
  have h := ops_atomic_on_failure emptyStore
    (.num (.fin 30)) (.num (.fin 10)) (.num (.fin 1)) .invalidRange rfl
  exact ⟨rfl, h.1, h.2⟩

/-- C10: after every successful `add` or `set` on a reachable store, the key
array is strictly increasing and contains exactly the map's keys, the
rebuild flag is cleared, and every rendered key has a stored intensity. -/
theorem internal_representation_consistent {st : Store} (hst : Reachable st)
    (f t a : Int) (hft : f < t) :
    ((add st f t a).sortedKeys.Sorted (· < ·) ∧
      (∀ k, k ∈ (add st f t a).sortedKeys ↔
        mapHas (add st f t a).segmentMap k = true) ∧
      (add st f t a).needsRebuild = false ∧
      ∀ k ∈ (add st f t a).sortedKeys,
        (mapGet (add st f t a).segmentMap k).isSome = true) ∧
    ((set st f t a).sortedKeys.Sorted (· < ·) ∧
      (∀ k, k ∈ (set st f t a).sortedKeys ↔
        mapHas (set st f t a).segmentMap k = true) ∧
      (set st f t a).needsRebuild = false ∧
      ∀ k ∈ (set st f t a).sortedKeys,
        (mapGet (set st f t a).segmentMap k).isSome = true) := by
  have h1 := (add_spec (reachable_inv hst) f t a hft).1
  have h2 := set_inv (reachable_inv hst) f t a
  refine ⟨⟨h1.sorted, h1.mem_iff, h1.clean, ?_⟩, ⟨h2.sorted, h2.mem_iff, h2.clean, ?_⟩⟩
  · intro k hk
    rw [← mapHas_eq_isSome]
    exact (h1.mem_iff k).mp hk
  · intro k hk
    rw [← mapHas_eq_isSome]
    exact (h2.mem_iff k).mp hk

theorem internal_representation_consistent_witness :
    (((add emptyStore 0 1 2).sortedKeys.Sorted (· < ·) ∧
      (∀ k, k ∈ (add emptyStore 0 1 2).sortedKeys ↔
        mapHas (add emptyStore 0 1 2).segmentMap k = true) ∧
      (add emptyStore 0 1 2).needsRebuild = false ∧
      ∀ k ∈ (add emptyStore 0 1 2).sortedKeys,
        (mapGet (add emptyStore 0 1 2).segmentMap k).isSome = true) ∧
    ((set emptyStore 0 1 2).sortedKeys.Sorted (· < ·) ∧
      (∀ k, k ∈ (set emptyStore 0 1 2).sortedKeys ↔
        mapHas (set emptyStore 0 1 2).segmentMap k = true) ∧
      (set emptyStore 0 1 2).needsRebuild = false ∧
      ∀ k ∈ (set emptyStore 0 1 2).sortedKeys,
        (mapGet (set emptyStore 0 1 2).segmentMap k).isSome = true)) :=
  internal_representation_consistent Reachable.base 0 1 2 (by decide)

end IntensitySegments
